import Mathlib

set_option maxRecDepth 100000

/-!
# Verification of `sitemap_generator.py`

A shallow embedding of the sitemap generator (`src/sitemap_generator.py`,
with `src/sitemap_generator-full.py` an identical-logic variant) together
with proofs about it.

* URL parsing (`urlNetloc`, `urlPath`) models the parts of Python's
  `urllib.parse.urlparse` that the program uses (the `netloc` and `path`
  components), for URLs free of ASCII control characters, tabs and
  surrounding whitespace (which `urlparse` would strip) and free of `;`
  path parameters (which `urlparse` would split off the path).
* `should_crawl`, `get_priority`, `fetch_url`, `extract_links`,
  `compare_with_previous`, `generate_xml_sitemap` are direct translations
  of the corresponding methods.
* The concurrent crawl (`SitemapGenerator.crawl`) is embedded as a
  small-step transition relation `Step` over `CrawlState`.  Under Python's
  cooperative (asyncio) scheduling, each worker's code between two `await`
  suspension points runs atomically; the atomic blocks are exactly the
  transitions of `Step`.
-/

/-- `needle` is a prefix of `hay` (Boolean, on char lists). -/
def isPrefixB : List Char → List Char → Bool
  | [], _ => true
  | _ :: _, [] => false
  | a :: as, b :: bs => a == b && isPrefixB as bs

/-- `needle` occurs as a contiguous sublist of `hay`. -/
def containsSubB (needle : List Char) : List Char → Bool
  | [] => needle.isEmpty
  | b :: bs => isPrefixB needle (b :: bs) || containsSubB needle bs

/-- Python `needle in haystack` on strings: substring containment. -/
def strContains (haystack needle : String) : Bool :=
  containsSubB needle.data haystack.data

/-- Python `s.lower()`, for ASCII text (the exclusion patterns and path
markers the program compares against are all ASCII). -/
def asciiLower (s : String) : String :=
  ⟨s.data.map Char.toLower⟩

/-- Split a char list at the first occurrence of `c`; `none` when `c` is absent.
Models Python `s.find(c)` / `s.split(c, 1)`. -/
def splitAtFirst (c : Char) : List Char → Option (List Char × List Char)
  | [] => none
  | x :: xs =>
    if x = c then some ([], xs)
    else (splitAtFirst c xs).map (fun p => (x :: p.1, p.2))

/-- The part of a char list strictly before the first occurrence of `c`
(the whole list when `c` is absent).  Models Python `s.split(c)[0]`. -/
def takeBefore (c : Char) (cs : List Char) : List Char :=
  match splitAtFirst c cs with
  | some (a, _) => a
  | none => cs

/-- Characters allowed in a URL scheme, per `urllib.parse.scheme_chars`
(ASCII letters, digits, `+`, `-`, `.`). -/
def isSchemeChar (c : Char) : Bool :=
  c.isAlpha || c.isDigit || c = '+' || c = '-' || c = '.'

/-- Drop a leading `scheme:` prefix, as `urllib.parse.urlsplit` does:
the text before the first `:` is a scheme when it is nonempty, starts with
an ASCII letter and consists of scheme characters only. -/
def dropScheme (cs : List Char) : List Char :=
  match splitAtFirst ':' cs with
  | some (before, after) =>
    match before with
    | [] => cs
    | b :: bs => if b.isAlpha && (b :: bs).all isSchemeChar then after else cs
  | none => cs

/-- Split off the network-location component: when the (scheme-stripped)
URL starts with `//`, the netloc runs up to the first `/`, `?` or `#`.
Returns `(netloc, rest)`, modelling `urllib.parse._splitnetloc`. -/
def splitNetloc : List Char → List Char × List Char
  | '/' :: '/' :: rest =>
    let netloc := rest.takeWhile (fun c => ¬ (c = '/' ∨ c = '?' ∨ c = '#'))
    let remainder := rest.dropWhile (fun c => ¬ (c = '/' ∨ c = '?' ∨ c = '#'))
    (netloc, remainder)
  | cs => ([], cs)

/-- `urlparse(url).netloc`: the host component of a URL. -/
def urlNetloc (url : String) : String :=
  ⟨(splitNetloc (dropScheme url.data)).1⟩

/-- `urlparse(url).path`: what remains after the scheme and netloc,
truncated at the first `#` (fragment) and then at the first `?` (query). -/
def urlPath (url : String) : String :=
  ⟨takeBefore '?' (takeBefore '#' (splitNetloc (dropScheme url.data)).2)⟩

/-- Python `url.split('#')[0]`: the URL truncated at its first `#`. -/
def stripFragment (url : String) : String :=
  String.mk (takeBefore '#' url.data)

/-- `self.excluded_patterns` set in `SitemapGenerator.__init__`. -/
def excluded_patterns : List String :=
  [".pdf", ".jpg", ".png", ".gif", ".zip", "/search", "/login"]

/-- The tracking-parameter markers checked by `should_crawl`'s filter 4. -/
def tracking_markers : List String := ["utm_", "fbclid", "gclid"]

/-- `SitemapGenerator.should_crawl(url)` with configured domain `domain`:
1. reject when the URL's netloc differs from the domain's netloc;
2. reject when the lowercased URL contains an excluded pattern;
3. strip the fragment into a *local* rebinding of `url` (the original
   argument is never returned or mutated);
4. reject when the fragment-stripped URL has a `?` and contains a
   tracking marker; otherwise accept. -/
def should_crawl (domain url : String) : Bool :=
  if urlNetloc url ≠ urlNetloc domain then
    false
  else if excluded_patterns.any (fun p => strContains (asciiLower url) p) then
    false
  else
    let url' := if strContains url "#" then stripFragment url else url
    if strContains url' "?" then
      if tracking_markers.any (fun x => strContains url' x) then false else true
    else
      true

/-- `SitemapGenerator.get_priority(url)` with configured domain `domain`.
The source's priorities are the exact decimals `1.0`, `0.9`, `0.8`,
`0.85`, `0.7`; they are embedded in hundredths (`0.9 ↦ 90`) so that the
decimal values stay exact. -/
def get_priority (domain url : String) : ℕ :=
  let path := asciiLower (urlPath url)
  if path = "/" ∨ path = "" ∨ path = domain then 100
  else if strContains path "/docs" then 90
  else if strContains path "/blog" then 80
  else if strContains path "/product" ∨ strContains path "/features" then 85
  else 70

example : urlNetloc "https://keploy.io/docs?id=1#s" = "keploy.io" := by decide
example : urlPath "https://keploy.io/docs?id=1#s" = "/docs" := by decide
example : urlPath "https://keploy.io" = "" := by decide
example : should_crawl "https://keploy.io" "https://keploy.io/docs" = true := by decide
example : should_crawl "https://keploy.io" "https://google.com/x" = false := by decide
example : should_crawl "https://keploy.io" "https://keploy.io/file.pdf" = false := by decide
example : should_crawl "https://keploy.io" "https://keploy.io/blog?utm_source=x" = false := by decide
example : should_crawl "https://keploy.io" "https://keploy.io/docs#install" = true := by decide
example : get_priority "https://keploy.io" "https://keploy.io/" = 100 := by decide
example : get_priority "https://keploy.io" "https://keploy.io/docs/1.0.0/glossary/x" = 90 := by decide
example : get_priority "https://keploy.io" "https://keploy.io/about" = 70 := by decide

/-- The outcome of the HTTP GET inside `fetch_url`:
* `err` — the request raised (timeout, DNS failure, connection refused,
  TLS error, malformed response headers, …); the bare `except:` catches it;
* `response status contentType bodyText` — a response arrived; `contentType`
  is `response.headers.get('content-type', '')` (a missing header and an
  empty header are indistinguishable to the code); `bodyText = none` models
  `await response.text()` itself raising (malformed body). -/
inductive FetchOutcome where
  | err : FetchOutcome
  | response (status : ℕ) (contentType : String) (bodyText : Option String) : FetchOutcome
deriving DecidableEq

/-- `SitemapGenerator.fetch_url`: return the body text when the response
has status 200 and a content-type containing `text/html`; every other
outcome — including any exception — yields `none`. -/
def fetch_url : FetchOutcome → Option String
  | .err => none
  | .response status contentType bodyText =>
    if status = 200 ∧ strContains contentType "text/html" then bodyText else none

/-- `SitemapGenerator.extract_links`, given the absolute URLs that the
page's non-empty `href` attributes resolve to (`urljoin` resolution of
relative hrefs is abstracted: `hrefs` are the resolved absolute URLs).
The method keeps those accepted by `should_crawl` and collects them into a
Python `set`; the set is embedded as a deduplicated list. -/
def extract_links (domain : String) (hrefs : List String) : List String :=
  (hrefs.filter (fun h => should_crawl domain h)).dedup

/-- The dictionary returned by `SitemapGenerator.compare_with_previous`.
`url_count_change = none` models the `'url_count_change'` key being
absent from the returned dict.  The `list(...)` conversions of the
Python sets are embedded as the sets themselves (their order is
unspecified in Python). -/
structure ChangeSet where
  new_urls : Finset String
  removed_urls : Finset String
  updated_urls : Finset String
  url_count_change : Option ℤ
deriving DecidableEq

/-- `SitemapGenerator.compare_with_previous`: `previous = none` models
`os.path.exists(previous_json_path)` being false (first run); otherwise
`previous` is the key set of the previous snapshot's `urls` dict and
`current` the key set of `self.urls_data`. -/
def compare_with_previous (previous : Option (Finset String))
    (current : Finset String) : ChangeSet :=
  match previous with
  | none =>
    { new_urls := current
      removed_urls := ∅
      updated_urls := ∅
      url_count_change := none }
  | some previous_urls =>
    { new_urls := current \ previous_urls
      removed_urls := previous_urls \ current
      updated_urls := current ∩ previous_urls
      url_count_change := some ((current.card : ℤ) - (previous_urls.card : ℤ)) }

/-- A value of `self.urls_data`: `{'lastmod': ..., 'priority': ...}`,
with the priority in hundredths (see `get_priority`). -/
structure PageRecord where
  lastmod : String
  priority : ℕ
deriving DecidableEq

/-- Code-point lexicographic order on char lists: exactly the order
Python's `sorted` uses on the URL strings. -/
def charListLe : List Char → List Char → Bool
  | [], _ => true
  | _ :: _, [] => false
  | a :: as, b :: bs =>
    if a.toNat < b.toNat then true
    else if b.toNat < a.toNat then false
    else charListLe as bs

/-- Code-point lexicographic order on strings (Python's `str` order). -/
def strLe (a b : String) : Prop := charListLe a.data b.data = true

instance : DecidableRel strLe := fun a b => by
  unfold strLe; infer_instance

theorem charListLe_total : ∀ a b : List Char, charListLe a b = true ∨ charListLe b a = true
  | [], _ => Or.inl rfl
  | _ :: _, [] => Or.inr rfl
  | a :: as, b :: bs => by
    simp only [charListLe]
    rcases Nat.lt_trichotomy a.toNat b.toNat with h | h | h
    · left; simp [h]
    · have h1 : ¬ a.toNat < b.toNat := by omega
      have h2 : ¬ b.toNat < a.toNat := by omega
      simpa [h1, h2] using charListLe_total as bs
    · right; simp [h]

theorem charListLe_trans :
    ∀ a b c : List Char, charListLe a b = true → charListLe b c = true →
      charListLe a c = true
  | [], _, _, _, _ => rfl
  | _ :: _, [], _, h, _ => by simp [charListLe] at h
  | _ :: _, _ :: _, [], _, h => by simp [charListLe] at h
  | a :: as, b :: bs, c :: cs, h1, h2 => by
    simp only [charListLe] at h1 h2 ⊢
    split_ifs at h1 h2 ⊢ with hab hba hbc hcb hac hca
    all_goals first
      | rfl
      | omega
      | (exact charListLe_trans as bs cs h1 h2)

instance : IsTotal String strLe := ⟨fun a b => charListLe_total a.data b.data⟩

instance : IsTrans String strLe :=
  ⟨fun a b c => charListLe_trans a.data b.data c.data⟩

/-- Python `f"{p:.2f}"` for the priorities the program stores: decimal
values that are exact multiples of 1/100, passed here in hundredths. -/
def format2dp (cents : ℕ) : String :=
  let frac := cents % 100
  toString (cents / 100) ++ "." ++ (if frac < 10 then "0" ++ toString frac else toString frac)

/-- One `<url>` element of the sitemap, exactly as `ET.tostring` renders
the subtree built for one URL. -/
def xml_url_entry (url : String) (rec : PageRecord) : String :=
  "<url><loc>" ++ url ++ "</loc><lastmod>" ++ rec.lastmod ++
    "</lastmod><priority>" ++ format2dp rec.priority ++ "</priority></url>"

/-- The XML declaration prepended by `generate_xml_sitemap`. -/
def xml_declaration : String := "<?xml version=\"1.0\" encoding=\"UTF-8\"?>\n"

/-- The `<urlset ...>` opening tag as `ET.tostring` renders the root
element with its registered namespaces and `xsi:schemaLocation`. -/
def urlset_open : String :=
  "<urlset xmlns=\"http://www.sitemaps.org/schemas/sitemap/0.9\" xmlns:xsi=\"http://www.w3.org/2001/XMLSchema-instance\" xsi:schemaLocation=\"http://www.sitemaps.org/schemas/sitemap/0.9 http://www.sitemaps.org/schemas/sitemap/0.9/sitemap.xsd\">"

/-- `SitemapGenerator.generate_xml_sitemap`.  `urls_data` is the
`self.urls_data` dict as an association list (its keys are unique);
`sorted(self.urls_data.keys())` sorts under the code-point order (any
stable sort; embedded as insertion sort), and each key's record is looked
up in the dict. -/
def sorted_keys (urls_data : List (String × PageRecord)) : List String :=
  (urls_data.map Prod.fst).insertionSort strLe

def generate_xml_sitemap (urls_data : List (String × PageRecord)) : String :=
  let entries := (sorted_keys urls_data).map (fun u =>
    xml_url_entry u (((urls_data.lookup u).getD ⟨"", 0⟩)))
  xml_declaration ++ urlset_open ++ String.join entries ++ "</urlset>"

example : format2dp 90 = "0.90" := by decide
example : format2dp 100 = "1.00" := by decide
example : format2dp 85 = "0.85" := by decide
example :
    compare_with_previous (some {"A", "B", "C"}) {"B", "C", "D"} =
      { new_urls := {"D"}, removed_urls := {"A"}, updated_urls := {"B", "C"},
        url_count_change := some 0 } := by decide
example :
    generate_xml_sitemap [("https://x.io/b", ⟨"2025-11-06", 90⟩), ("https://x.io/a", ⟨"2025-11-06", 100⟩)] =
      "<?xml version=\"1.0\" encoding=\"UTF-8\"?>\n" ++ urlset_open ++
        "<url><loc>https://x.io/a</loc><lastmod>2025-11-06</lastmod><priority>1.00</priority></url>" ++
        "<url><loc>https://x.io/b</loc><lastmod>2025-11-06</lastmod><priority>0.90</priority></url>" ++
        "</urlset>" := by decide

/-- The state of one run of `SitemapGenerator.crawl` with its pool of
worker coroutines.

Workers are symmetric, so only their states are tracked: `nIdle` counts
workers inside the `while True` loop about to call `queue.get_nowait()`,
`fetching` lists the URL each currently-fetching worker holds (a worker
enters it at the atomic claim block, covering both its wait on the
semaphore and its `fetch_url` await), and `nDone` counts workers whose
loop has exited.  `fetchLog` is a ghost history: the URLs passed to
`fetch_url`, in claim order.  `storeKeys` is the key set of
`self.urls_data`.  The semaphore only restricts which interleavings can
occur, so properties proved for all interleavings of this relation cover
the semaphore-constrained executions. -/
structure CrawlState where
  queue : List String
  visited : Finset String
  storeKeys : Finset String
  fetchLog : List String
  nIdle : ℕ
  fetching : List String
  nDone : ℕ
deriving DecidableEq

/-- `crawl` seeds the queue with `self.start_url` and launches `n`
workers (`max_concurrent` of them in the source). -/
def initState (start : String) (n : ℕ) : CrawlState :=
  ⟨[start], ∅, ∅, [], n, [], 0⟩

/-- One atomic block of a worker, under asyncio's cooperative scheduling
(control changes hands only at `await` suspension points):

* `claim_visited` — `get_nowait()` returns a URL already in
  `self.visited`; the worker `continue`s.
* `claim_new` — `get_nowait()` returns an unvisited URL; the worker adds
  it to `self.visited` in the same block and proceeds to fetch it.
* `worker_exit` — `get_nowait()` raises `QueueEmpty`; the worker breaks
  out of its loop.
* `fetch_fail` — a fetch completes with `fetch_url` returning `None`
  (`site u = none`); nothing is recorded and the worker loops.
* `fetch_success` — a fetch completes with HTML (`site u = some hrefs`);
  the worker records `self.urls_data[url]`, extracts the links, and
  enqueues every extracted link not yet in `self.visited` — all before
  its next suspension point.

`site` is the environment: what `fetch_url` yields for each URL, with
`some hrefs` carrying the absolute URLs found on the served page. -/
inductive Step (site : String → Option (List String)) (domain : String) :
    CrawlState → CrawlState → Prop
  | claim_visited (u : String) (q' : List String) (v st : Finset String)
      (log : List String) (i : ℕ) (f : List String) (d : ℕ) :
      u ∈ v →
      Step site domain ⟨u :: q', v, st, log, i + 1, f, d⟩ ⟨q', v, st, log, i + 1, f, d⟩
  | claim_new (u : String) (q' : List String) (v st : Finset String)
      (log : List String) (i : ℕ) (f : List String) (d : ℕ) :
      u ∉ v →
      Step site domain ⟨u :: q', v, st, log, i + 1, f, d⟩
        ⟨q', insert u v, st, log ++ [u], i, u :: f, d⟩
  | worker_exit (v st : Finset String) (log : List String) (i : ℕ)
      (f : List String) (d : ℕ) :
      Step site domain ⟨[], v, st, log, i + 1, f, d⟩ ⟨[], v, st, log, i, f, d + 1⟩
  | fetch_fail (q : List String) (v st : Finset String) (log : List String)
      (i : ℕ) (f1 : List String) (u : String) (f2 : List String) (d : ℕ) :
      site u = none →
      Step site domain ⟨q, v, st, log, i, f1 ++ u :: f2, d⟩
        ⟨q, v, st, log, i + 1, f1 ++ f2, d⟩
  | fetch_success (q : List String) (v st : Finset String) (log : List String)
      (i : ℕ) (f1 : List String) (u : String) (f2 : List String) (d : ℕ)
      (hrefs : List String) :
      site u = some hrefs →
      Step site domain ⟨q, v, st, log, i, f1 ++ u :: f2, d⟩
        ⟨q ++ (extract_links domain hrefs).filter (fun l => decide (l ∉ v)),
          v, insert u st, log, i + 1, f1 ++ f2, d⟩

/-- Multi-step execution of the crawl. -/
def Reach (site : String → Option (List String)) (domain : String) :
    CrawlState → CrawlState → Prop :=
  Relation.ReflTransGen (Step site domain)

/-- A URL is reachable when it is the start URL or is linked, through a
`should_crawl`-passing link, from a reachable page whose fetch succeeds. -/
inductive URLReachable (site : String → Option (List String))
    (domain start : String) : String → Prop
  | start : URLReachable site domain start start
  | link (u v : String) (hrefs : List String) :
      URLReachable site domain start u → site u = some hrefs →
      v ∈ extract_links domain hrefs → URLReachable site domain start v

/-- Inductive invariant of the crawl loop. -/
structure CrawlInv (site : String → Option (List String)) (domain start : String)
    (n : ℕ) (s : CrawlState) : Prop where
  visited_eq_log : s.visited = s.fetchLog.toFinset
  log_nodup : s.fetchLog.Nodup
  fetching_nodup : s.fetching.Nodup
  store_sub_visited : s.storeKeys ⊆ s.visited
  fetching_sub_visited : ∀ u ∈ s.fetching, u ∈ s.visited
  queue_reach : ∀ u ∈ s.queue, URLReachable site domain start u
  visited_reach : ∀ u ∈ s.visited, URLReachable site domain start u
  start_covered : start ∈ s.visited ∨ start ∈ s.queue
  frontier_closed : ∀ u ∈ s.storeKeys, ∀ hrefs, site u = some hrefs →
    ∀ w ∈ extract_links domain hrefs, w ∈ s.visited ∨ w ∈ s.queue
  pending : ∀ u ∈ s.visited, u ∉ s.storeKeys → u ∈ s.fetching ∨ site u = none
  store_success : ∀ u ∈ s.storeKeys, ∃ hrefs, site u = some hrefs
  workers_count : s.nIdle + s.fetching.length + s.nDone = n

theorem inv_init (site : String → Option (List String)) (domain start : String)
    (n : ℕ) : CrawlInv site domain start n (initState start n) where
  visited_eq_log := by simp [initState]
  log_nodup := List.nodup_nil
  fetching_nodup := List.nodup_nil
  store_sub_visited := by simp [initState]
  fetching_sub_visited := by simp [initState]
  queue_reach := by
    intro u hu
    simp only [initState, List.mem_singleton] at hu
    exact hu ▸ URLReachable.start
  visited_reach := by simp [initState]
  start_covered := Or.inr (by simp [initState])
  frontier_closed := by simp [initState]
  pending := by simp [initState]
  store_success := by simp [initState]
  workers_count := by simp [initState]

theorem nodup_of_nodup_middle {α : Type} {f1 f2 : List α} {u : α}
    (h : (f1 ++ u :: f2).Nodup) : (f1 ++ f2).Nodup := by
  simp only [List.nodup_append, List.nodup_cons, List.disjoint_cons_right] at h ⊢
  tauto

theorem mem_append_middle {α : Type} {f1 f2 : List α} {u w : α}
    (h : w ∈ f1 ++ f2) : w ∈ f1 ++ u :: f2 := by
  simp only [List.mem_append, List.mem_cons] at h ⊢
  tauto

theorem eq_or_mem_of_mem_middle {α : Type} {f1 f2 : List α} {u w : α}
    (h : w ∈ f1 ++ u :: f2) : w = u ∨ w ∈ f1 ++ f2 := by
  simp only [List.mem_append, List.mem_cons] at h ⊢
  tauto

theorem inv_step {site : String → Option (List String)} {domain start : String}
    {n : ℕ} {s s' : CrawlState} (hinv : CrawlInv site domain start n s)
    (hstep : Step site domain s s') : CrawlInv site domain start n s' := by
  cases hstep with
  | claim_visited u q' v st log i f d hu =>
    obtain ⟨h1, h2, h3, h4, h5, h6, h7, h8, h9, h10, h11, h12⟩ := hinv
    dsimp only at h1 h2 h3 h4 h5 h6 h7 h8 h9 h10 h11 h12
    refine ⟨h1, h2, h3, h4, h5, ?_, h7, ?_, ?_, h10, h11, h12⟩
    · exact fun x hx => h6 x (List.mem_cons_of_mem u hx)
    · rcases h8 with h | h
      · exact Or.inl h
      · rcases List.mem_cons.mp h with rfl | h
        · exact Or.inl hu
        · exact Or.inr h
    · intro w hw hrefs hsite x hx
      rcases h9 w hw hrefs hsite x hx with h | h
      · exact Or.inl h
      · rcases List.mem_cons.mp h with rfl | h
        · exact Or.inl hu
        · exact Or.inr h
  | claim_new u q' v st log i f d hu =>
    obtain ⟨h1, h2, h3, h4, h5, h6, h7, h8, h9, h10, h11, h12⟩ := hinv
    dsimp only at h1 h2 h3 h4 h5 h6 h7 h8 h9 h10 h11 h12
    have hulog : u ∉ log := fun hc => hu (h1 ▸ List.mem_toFinset.mpr hc)
    refine ⟨?_, ?_, ?_, ?_, ?_, ?_, ?_, ?_, ?_, ?_, h11, ?_⟩
    · simp only [List.toFinset_append, List.toFinset_cons, List.toFinset_nil]
      rw [h1]
      ext x
      simp [Finset.mem_union, Finset.mem_insert, or_comm]
    · simpa [List.nodup_append] using ⟨h2, hulog⟩
    · exact List.nodup_cons.mpr ⟨fun hc => hu (h5 u hc), h3⟩
    · exact fun x hx => Finset.mem_insert_of_mem (h4 hx)
    · intro x hx
      rcases List.mem_cons.mp hx with rfl | hx
      · exact Finset.mem_insert_self x v
      · exact Finset.mem_insert_of_mem (h5 x hx)
    · exact fun x hx => h6 x (List.mem_cons_of_mem u hx)
    · intro x hx
      rcases Finset.mem_insert.mp hx with rfl | hx
      · exact h6 x (List.mem_cons_self x q')
      · exact h7 x hx
    · rcases h8 with h | h
      · exact Or.inl (Finset.mem_insert_of_mem h)
      · rcases List.mem_cons.mp h with rfl | h
        · exact Or.inl (Finset.mem_insert_self start v)
        · exact Or.inr h
    · intro w hw hrefs hsite x hx
      rcases h9 w hw hrefs hsite x hx with h | h
      · exact Or.inl (Finset.mem_insert_of_mem h)
      · rcases List.mem_cons.mp h with rfl | h
        · exact Or.inl (Finset.mem_insert_self x v)
        · exact Or.inr h
    · intro x hx hxs
      rcases Finset.mem_insert.mp hx with rfl | hx
      · exact Or.inl (List.mem_cons_self x f)
      · rcases h10 x hx hxs with h | h
        · exact Or.inl (List.mem_cons_of_mem u h)
        · exact Or.inr h
    · dsimp only
      simp only [List.length_cons]
      omega
  | worker_exit v st log i f d =>
    obtain ⟨h1, h2, h3, h4, h5, h6, h7, h8, h9, h10, h11, h12⟩ := hinv
    dsimp only at h1 h2 h3 h4 h5 h6 h7 h8 h9 h10 h11 h12
    exact ⟨h1, h2, h3, h4, h5, h6, h7, h8, h9, h10, h11, by dsimp only; omega⟩
  | fetch_fail q v st log i f1 u f2 d hsite =>
    obtain ⟨h1, h2, h3, h4, h5, h6, h7, h8, h9, h10, h11, h12⟩ := hinv
    dsimp only at h1 h2 h3 h4 h5 h6 h7 h8 h9 h10 h11 h12
    refine ⟨h1, h2, nodup_of_nodup_middle h3, h4,
      fun x hx => h5 x (mem_append_middle hx), h6, h7, h8, h9, ?_, h11, ?_⟩
    · intro x hx hxs
      rcases h10 x hx hxs with h | h
      · rcases eq_or_mem_of_mem_middle h with rfl | h
        · exact Or.inr hsite
        · exact Or.inl h
      · exact Or.inr h
    · dsimp only
      simp only [List.length_append, List.length_cons] at h12 ⊢
      omega
  | fetch_success q v st log i f1 u f2 d hrefs hsite =>
    obtain ⟨h1, h2, h3, h4, h5, h6, h7, h8, h9, h10, h11, h12⟩ := hinv
    dsimp only at h1 h2 h3 h4 h5 h6 h7 h8 h9 h10 h11 h12
    have humem : u ∈ f1 ++ u :: f2 := by
      simp [List.mem_append, List.mem_cons]
    refine ⟨h1, h2, nodup_of_nodup_middle h3, ?_,
      fun x hx => h5 x (mem_append_middle hx), ?_, h7, ?_, ?_, ?_, ?_, ?_⟩
    · intro x hx
      rcases Finset.mem_insert.mp hx with rfl | hx
      · exact h5 x humem
      · exact h4 hx
    · intro x hx
      rcases List.mem_append.mp hx with hx | hx
      · exact h6 x hx
      · have hx' : x ∈ extract_links domain hrefs := List.mem_of_mem_filter hx
        exact URLReachable.link u x hrefs (h7 u (h5 u humem)) hsite hx'
    · rcases h8 with h | h
      · exact Or.inl h
      · exact Or.inr (List.mem_append_left _ h)
    · intro w hw hrefs' hsite' x hx
      rcases Finset.mem_insert.mp hw with rfl | hw
      · have : hrefs' = hrefs := by
          rw [hsite] at hsite'
          exact (Option.some_injective _ hsite').symm
        subst this
        by_cases hxv : x ∈ v
        · exact Or.inl hxv
        · refine Or.inr (List.mem_append_right _ ?_)
          exact List.mem_filter.mpr ⟨hx, by simpa using hxv⟩
      · rcases h9 w hw hrefs' hsite' x hx with h | h
        · exact Or.inl h
        · exact Or.inr (List.mem_append_left _ h)
    · intro x hx hxs
      have hxu : x ≠ u := fun hc => hxs (hc ▸ Finset.mem_insert_self u st)
      have hxs' : x ∉ st := fun hc => hxs (Finset.mem_insert_of_mem hc)
      rcases h10 x hx hxs' with h | h
      · rcases eq_or_mem_of_mem_middle h with rfl | h
        · exact absurd rfl hxu
        · exact Or.inl h
      · exact Or.inr h
    · intro x hx
      rcases Finset.mem_insert.mp hx with rfl | hx
      · exact ⟨hrefs, hsite⟩
      · exact h11 x hx
    · dsimp only
      simp only [List.length_append, List.length_cons] at h12 ⊢
      omega

theorem inv_reach {site : String → Option (List String)} {domain start : String}
    {n : ℕ} {s : CrawlState}
    (h : Reach site domain (initState start n) s) :
    CrawlInv site domain start n s := by
  induction h with
  | refl => exact inv_init site domain start n
  | tail _ hstep ih => exact inv_step ih hstep

/-- After any step, an all-workers-stopped state has an empty queue
(the last worker to stop can only have done so on `QueueEmpty`, and no
other worker remains to refill the queue). -/
def TermOk (s : CrawlState) : Prop :=
  s.nIdle = 0 → s.fetching = [] → s.queue = []

theorem step_termOk {site : String → Option (List String)} {domain : String}
    {s s' : CrawlState} (hstep : Step site domain s s') : TermOk s' := by
  cases hstep with
  | claim_visited u q' v st log i f d hu => exact fun h _ => absurd h (by simp)
  | claim_new u q' v st log i f d hu => exact fun _ h => absurd h (by simp)
  | worker_exit v st log i f d => exact fun _ _ => rfl
  | fetch_fail q v st log i f1 u f2 d hsite => exact fun h _ => absurd h (by simp)
  | fetch_success q v st log i f1 u f2 d hrefs hsite =>
    exact fun h _ => absurd h (by simp)

theorem reach_termOk {site : String → Option (List String)} {domain start : String}
    {n : ℕ} {s : CrawlState} (hn : 1 ≤ n)
    (h : Reach site domain (initState start n) s) : TermOk s := by
  induction h with
  | refl => exact fun h _ => absurd h (by simp [initState]; omega)
  | tail _ hstep _ => exact step_termOk hstep

/-- Any state with a non-stopped worker can step: a fetching worker's
fetch completes (one way or the other), and an idle worker either claims
a URL or exits on the empty queue. -/
theorem crawl_progress (site : String → Option (List String)) (domain : String)
    (s : CrawlState) (h : s.nIdle ≠ 0 ∨ s.fetching ≠ []) :
    ∃ s', Step site domain s s' := by
  obtain ⟨q, v, st, log, i, f, d⟩ := s
  dsimp only at h
  rcases f with _ | ⟨u, f⟩
  · replace h : i ≠ 0 := by
      rcases h with h | h
      · exact h
      · exact absurd rfl h
    obtain ⟨i', rfl⟩ : ∃ i', i = i' + 1 := ⟨i - 1, by omega⟩
    rcases q with _ | ⟨u, q'⟩
    · exact ⟨_, Step.worker_exit v st log i' [] d⟩
    · by_cases hu : u ∈ v
      · exact ⟨_, Step.claim_visited u q' v st log i' [] d hu⟩
      · exact ⟨_, Step.claim_new u q' v st log i' [] d hu⟩
  · rcases hsite : site u with _ | hrefs
    · exact ⟨_, Step.fetch_fail q v st log i [] u f d hsite⟩
    · exact ⟨_, Step.fetch_success q v st log i [] u f d hrefs hsite⟩

/-- The site graph stays inside a finite universe `U` of URLs: every
link extracted from any served page lies in `U`. -/
def SiteClosed (site : String → Option (List String)) (domain : String)
    (U : Finset String) : Prop :=
  ∀ u hrefs, site u = some hrefs → ∀ v ∈ extract_links domain hrefs, v ∈ U

/-- The parts of the crawl state that must stay inside `U` for the
termination measure. -/
structure BoundedBy (U : Finset String) (s : CrawlState) : Prop where
  queue_sub : ∀ u ∈ s.queue, u ∈ U
  visited_sub : s.visited ⊆ U

theorem bounded_init {U : Finset String} {start : String} {n : ℕ}
    (hstart : start ∈ U) : BoundedBy U (initState start n) := by
  refine ⟨?_, ?_⟩
  · intro u hu
    simp only [initState, List.mem_singleton] at hu
    exact hu ▸ hstart
  · simp [initState]

theorem bounded_step {site : String → Option (List String)} {domain : String}
    {U : Finset String} {s s' : CrawlState} (hU : SiteClosed site domain U)
    (hb : BoundedBy U s) (hstep : Step site domain s s') : BoundedBy U s' := by
  obtain ⟨hq, hv⟩ := hb
  cases hstep with
  | claim_visited u q' v st log i f d hu =>
    dsimp only at hq hv
    exact ⟨fun x hx => hq x (List.mem_cons_of_mem u hx), hv⟩
  | claim_new u q' v st log i f d hu =>
    dsimp only at hq hv
    refine ⟨fun x hx => hq x (List.mem_cons_of_mem u hx), ?_⟩
    intro x hx
    rcases Finset.mem_insert.mp hx with rfl | hx
    · exact hq x (List.mem_cons_self x q')
    · exact hv hx
  | worker_exit v st log i f d => exact ⟨hq, hv⟩
  | fetch_fail q v st log i f1 u f2 d hsite => exact ⟨hq, hv⟩
  | fetch_success q v st log i f1 u f2 d hrefs hsite =>
    dsimp only at hq hv
    refine ⟨?_, hv⟩
    intro x hx
    rcases List.mem_append.mp hx with hx | hx
    · exact hq x hx
    · exact hU u hrefs hsite x (List.mem_of_mem_filter hx)

/-- Termination measure for the crawl: decreases on every step once the
state is bounded by `U`. -/
def crawlMeasure (U : Finset String) (s : CrawlState) : ℕ :=
  (U.card + 3) * (U \ s.visited).card + (U.card + 2) * s.fetching.length +
    s.queue.length + s.nIdle

theorem extract_links_nodup (domain : String) (hrefs : List String) :
    (extract_links domain hrefs).Nodup :=
  List.nodup_dedup _

theorem enqueued_length_le {domain : String} {hrefs : List String}
    {v U : Finset String}
    (hsub : ∀ x ∈ extract_links domain hrefs, x ∈ U) :
    ((extract_links domain hrefs).filter (fun l => decide (l ∉ v))).length ≤ U.card := by
  have hnd : ((extract_links domain hrefs).filter (fun l => decide (l ∉ v))).Nodup :=
    (extract_links_nodup domain hrefs).filter _
  have hsub' : ((extract_links domain hrefs).filter (fun l => decide (l ∉ v))).toFinset ⊆ U := by
    intro x hx
    exact hsub x (List.mem_of_mem_filter (List.mem_toFinset.mp hx))
  calc ((extract_links domain hrefs).filter (fun l => decide (l ∉ v))).length
      = ((extract_links domain hrefs).filter (fun l => decide (l ∉ v))).toFinset.card :=
        (List.toFinset_card_of_nodup hnd).symm
    _ ≤ U.card := Finset.card_le_card hsub'

theorem measure_decreases {site : String → Option (List String)} {domain : String}
    {U : Finset String} {s s' : CrawlState} (hU : SiteClosed site domain U)
    (hb : BoundedBy U s) (hstep : Step site domain s s') :
    crawlMeasure U s' < crawlMeasure U s := by
  obtain ⟨hq, hv⟩ := hb
  cases hstep with
  | claim_visited u q' v st log i f d hu =>
    simp only [crawlMeasure, List.length_cons]
    omega
  | claim_new u q' v st log i f d hu =>
    dsimp only at hq hv
    have huU : u ∈ U := hq u (List.mem_cons_self u q')
    have hcard : (U \ insert u v).card + 1 = (U \ v).card := by
      rw [Finset.sdiff_insert]
      rw [Finset.card_erase_of_mem (Finset.mem_sdiff.mpr ⟨huU, hu⟩)]
      have : 1 ≤ (U \ v).card :=
        Finset.card_pos.mpr ⟨u, Finset.mem_sdiff.mpr ⟨huU, hu⟩⟩
      omega
    simp only [crawlMeasure, List.length_cons]
    rw [← hcard]
    generalize (U \ insert u v).card = A
    generalize hk : U.card = k
    simp only [Nat.mul_succ, Nat.mul_add]
    omega
  | worker_exit v st log i f d =>
    simp only [crawlMeasure]
    omega
  | fetch_fail q v st log i f1 u f2 d hsite =>
    simp only [crawlMeasure, List.length_append, List.length_cons]
    simp only [Nat.mul_succ, Nat.mul_add]
    omega
  | fetch_success q v st log i f1 u f2 d hrefs hsite =>
    have hlen := enqueued_length_le (v := v)
      (fun x hx => hU u hrefs hsite x hx)
    simp only [crawlMeasure, List.length_append, List.length_cons]
    simp only [Nat.mul_succ, Nat.mul_add]
    omega

theorem bounded_of_exec {site : String → Option (List String)} {domain start : String}
    {n : ℕ} {U : Finset String} (hU : SiteClosed site domain U)
    (hstart : start ∈ U) (f : ℕ → CrawlState) (h0 : f 0 = initState start n)
    (hstep : ∀ k, Step site domain (f k) (f (k + 1))) :
    ∀ k, BoundedBy U (f k) := by
  intro k
  induction k with
  | zero => exact h0 ▸ bounded_init hstart
  | succ k ih => exact bounded_step hU ih (hstep k)

/-- No execution of the crawl is infinite when the site graph is finite. -/
theorem no_infinite_execution {site : String → Option (List String)}
    {domain start : String} {n : ℕ} {U : Finset String}
    (hU : SiteClosed site domain U) (hstart : start ∈ U) :
    ¬ ∃ f : ℕ → CrawlState, f 0 = initState start n ∧
      ∀ k, Step site domain (f k) (f (k + 1)) := by
  rintro ⟨f, h0, hstep⟩
  have hb := bounded_of_exec hU hstart f h0 hstep
  have hdec : ∀ k, crawlMeasure U (f (k + 1)) < crawlMeasure U (f k) :=
    fun k => measure_decreases hU (hb k) (hstep k)
  have hle : ∀ k, crawlMeasure U (f k) + k ≤ crawlMeasure U (f 0) := by
    intro k
    induction k with
    | zero => omega
    | succ k ih => have := hdec k; omega
  have := hle (crawlMeasure U (f 0) + 1)
  omega

/-- In a reachable state every visited URL is a reachable URL, and once
all workers have stopped, every reachable URL has been visited. -/
theorem visited_eq_reachable_at_end {site : String → Option (List String)}
    {domain start : String} {n : ℕ} {s : CrawlState} (hn : 1 ≤ n)
    (hreach : Reach site domain (initState start n) s)
    (hidle : s.nIdle = 0) (hfetch : s.fetching = []) :
    s.queue = [] ∧ ∀ u, u ∈ s.visited ↔ URLReachable site domain start u := by
  have inv := inv_reach hreach
  have hq : s.queue = [] := reach_termOk hn hreach hidle hfetch
  refine ⟨hq, fun u => ⟨fun hu => inv.visited_reach u hu, fun hu => ?_⟩⟩
  induction hu with
  | start =>
    rcases inv.start_covered with h | h
    · exact h
    · rw [hq] at h
      exact absurd h (List.not_mem_nil start)
  | link w x hrefs _ hsite hx ihw =>
    have hwv : w ∈ s.visited := ihw
    have hwst : w ∈ s.storeKeys := by
      by_contra hws
      rcases inv.pending w hwv hws with h | h
      · rw [hfetch] at h
        exact absurd h (List.not_mem_nil w)
      · rw [h] at hsite
        exact Option.noConfusion hsite
    rcases inv.frontier_closed w hwst hrefs hsite x hx with h | h
    · exact h
    · rw [hq] at h
      exact absurd h (List.not_mem_nil x)

/-- **C1.** During one crawl run over any site graph — cyclic ones
included — `fetch_url` is started at most once per URL (`fetchLog` is
duplicate-free); once every worker has stopped, the fetched URLs are
exactly those reachable from the start URL through filter-passing links
of successfully fetched pages, each fetched exactly once; and through
the whole run the visited set equals the set of claimed-for-fetch URLs:
a URL enters it exactly when a worker claims it, before its fetch and
independently of the fetch's success. -/
theorem crawl_no_duplicate_fetch
    (site : String → Option (List String)) (domain start : String) (n : ℕ)
    (hn : 1 ≤ n) (s : CrawlState)
    (hreach : Reach site domain (initState start n) s)
    (hidle : s.nIdle = 0) (hfetch : s.fetching = []) :
    s.fetchLog.Nodup ∧
      (∀ u, u ∈ s.fetchLog ↔ URLReachable site domain start u) ∧
      (∀ u, URLReachable site domain start u → s.fetchLog.count u = 1) ∧
      s.visited = s.fetchLog.toFinset := by
  have inv := inv_reach hreach
  have hvr := visited_eq_reachable_at_end hn hreach hidle hfetch
  have hmem : ∀ u, u ∈ s.fetchLog ↔ URLReachable site domain start u := by
    intro u
    rw [← (hvr.2 u), inv.visited_eq_log, List.mem_toFinset]
  refine ⟨inv.log_nodup, hmem, fun u hu => ?_, inv.visited_eq_log⟩
  exact List.count_eq_one_of_mem inv.log_nodup ((hmem u).mpr hu)

/-- **C2.** For every finite site graph (`U` a finite universe the links
stay in), even with cyclic links, the crawl terminates: no execution is
infinite, and any reachable state from which no step is possible has an
empty frontier queue, no idle or fetching worker, and all `n` workers
exited. -/
theorem crawl_terminates
    (site : String → Option (List String)) (domain start : String) (n : ℕ)
    (U : Finset String) (hU : SiteClosed site domain U) (hstart : start ∈ U)
    (hn : 1 ≤ n) :
    (¬ ∃ f : ℕ → CrawlState, f 0 = initState start n ∧
        ∀ k, Step site domain (f k) (f (k + 1))) ∧
      ∀ s, Reach site domain (initState start n) s →
        (∀ s', ¬ Step site domain s s') →
        s.queue = [] ∧ s.nIdle = 0 ∧ s.fetching = [] ∧ s.nDone = n := by
  refine ⟨no_infinite_execution hU hstart, fun s hreach hstuck => ?_⟩
  have hterm : s.nIdle = 0 ∧ s.fetching = [] := by
    by_contra hc
    have h : s.nIdle ≠ 0 ∨ s.fetching ≠ [] := by tauto
    obtain ⟨s', hs'⟩ := crawl_progress site domain s h
    exact hstuck s' hs'
  have hq : s.queue = [] := reach_termOk hn hreach hterm.1 hterm.2
  have hcount := (inv_reach hreach).workers_count
  rw [hterm.1, hterm.2] at hcount
  simp only [List.length_nil] at hcount
  exact ⟨hq, hterm.1, hterm.2, by omega⟩

/-- **C10.** In every reachable state of a crawl run the key set of the
sitemap store is contained in the visited set, and every stored key's
fetch returned HTML (`site u = some …`): a `PageRecord` exists only for
URLs that were claimed (hence visited) and whose fetch succeeded. -/
theorem store_keys_subset_visited
    (site : String → Option (List String)) (domain start : String) (n : ℕ)
    (s : CrawlState) (hreach : Reach site domain (initState start n) s) :
    s.storeKeys ⊆ s.visited ∧ ∀ u ∈ s.storeKeys, ∃ hrefs, site u = some hrefs :=
  ⟨(inv_reach hreach).store_sub_visited, (inv_reach hreach).store_success⟩

/-- A concrete two-page site with a link cycle (start page ↔ `/a`),
used to exercise the crawl theorems. -/
def siteCyc : String → Option (List String) := fun u =>
  if u = "https://x.io" then some ["https://x.io/a"]
  else if u = "https://x.io/a" then some ["https://x.io"]
  else none

/-- The configured domain for the concrete site graphs. -/
def domX : String := "https://x.io"

def sCyc1 : CrawlState :=
  ⟨[], {"https://x.io"}, ∅, ["https://x.io"], 1, ["https://x.io"], 0⟩

def sCyc2 : CrawlState :=
  ⟨[], {"https://x.io"}, ∅, ["https://x.io"], 0, ["https://x.io"], 1⟩

def sCyc3 : CrawlState :=
  ⟨["https://x.io/a"], {"https://x.io"}, {"https://x.io"}, ["https://x.io"], 1, [], 1⟩

theorem stepCyc1 : Step siteCyc domX (initState "https://x.io" 2) sCyc1 := by
  have h := @Step.claim_new siteCyc domX "https://x.io" [] ∅ ∅ [] 1 [] 0
    (by decide)
  exact h

theorem stepCyc2 : Step siteCyc domX sCyc1 sCyc2 := by
  have h := @Step.worker_exit siteCyc domX {"https://x.io"} ∅ ["https://x.io"] 0
    ["https://x.io"] 0
  exact h

theorem stepCyc3 : Step siteCyc domX sCyc2 sCyc3 := by
  have h := @Step.fetch_success siteCyc domX [] {"https://x.io"} ∅ ["https://x.io"]
    0 [] "https://x.io" [] 1 ["https://x.io/a"] (by decide)
  exact h

def sCyc4 : CrawlState :=
  ⟨[], insert "https://x.io/a" {"https://x.io"}, {"https://x.io"},
    ["https://x.io", "https://x.io/a"], 0, ["https://x.io/a"], 1⟩

def sCyc5 : CrawlState :=
  ⟨[], insert "https://x.io/a" {"https://x.io"},
    insert "https://x.io/a" {"https://x.io"},
    ["https://x.io", "https://x.io/a"], 1, [], 1⟩

/-- The state in which the cyclic-site crawl has stopped: both pages
fetched once, both workers exited. -/
def sCycEnd : CrawlState :=
  ⟨[], insert "https://x.io/a" {"https://x.io"},
    insert "https://x.io/a" {"https://x.io"},
    ["https://x.io", "https://x.io/a"], 0, [], 2⟩

theorem stepCyc4 : Step siteCyc domX sCyc3 sCyc4 := by
  have h := @Step.claim_new siteCyc domX "https://x.io/a" [] {"https://x.io"}
    {"https://x.io"} ["https://x.io"] 0 [] 1 (by decide)
  exact h

theorem stepCyc5 : Step siteCyc domX sCyc4 sCyc5 := by
  have h := @Step.fetch_success siteCyc domX []
    (insert "https://x.io/a" {"https://x.io"}) {"https://x.io"}
    ["https://x.io", "https://x.io/a"] 0 [] "https://x.io/a" [] 1
    ["https://x.io"] (by decide)
  exact h

theorem stepCyc6 : Step siteCyc domX sCyc5 sCycEnd := by
  have h := @Step.worker_exit siteCyc domX
    (insert "https://x.io/a" {"https://x.io"})
    (insert "https://x.io/a" {"https://x.io"})
    ["https://x.io", "https://x.io/a"] 0 [] 1
  exact h

/-- A full execution of the crawl over the cyclic site, from the initial
state to the all-workers-stopped state. -/
theorem reachCycEnd : Reach siteCyc domX (initState "https://x.io" 2) sCycEnd := by
  refine Relation.ReflTransGen.head stepCyc1 ?_
  refine Relation.ReflTransGen.head stepCyc2 ?_
  refine Relation.ReflTransGen.head stepCyc3 ?_
  refine Relation.ReflTransGen.head stepCyc4 ?_
  refine Relation.ReflTransGen.head stepCyc5 ?_
  exact Relation.ReflTransGen.single stepCyc6

/-- The cyclic site's links stay inside the two-URL universe. -/
theorem siteCyc_closed :
    SiteClosed siteCyc domX {"https://x.io", "https://x.io/a"} := by
  intro u hrefs hsite x hx
  simp only [siteCyc] at hsite
  split_ifs at hsite with h1 h2
  · cases hsite
    have he : extract_links domX ["https://x.io/a"] = ["https://x.io/a"] := by decide
    rw [he] at hx
    rcases List.mem_singleton.mp hx with rfl
    decide
  · cases hsite
    have he : extract_links domX ["https://x.io"] = ["https://x.io"] := by decide
    rw [he] at hx
    rcases List.mem_singleton.mp hx with rfl
    decide

/-- A site whose start page links to the same document twice, once with
and once without a `#` fragment. -/
def siteFrag : String → Option (List String) := fun u =>
  if u = "https://x.io" then some ["https://x.io/docs", "https://x.io/docs#install"]
  else if u = "https://x.io/docs" then some []
  else if u = "https://x.io/docs#install" then some []
  else none

def sFrag1 : CrawlState :=
  ⟨[], {"https://x.io"}, ∅, ["https://x.io"], 0, ["https://x.io"], 0⟩

def sFrag2 : CrawlState :=
  ⟨["https://x.io/docs", "https://x.io/docs#install"], {"https://x.io"},
    {"https://x.io"}, ["https://x.io"], 1, [], 0⟩

def sFrag3 : CrawlState :=
  ⟨["https://x.io/docs#install"], insert "https://x.io/docs" {"https://x.io"},
    {"https://x.io"}, ["https://x.io", "https://x.io/docs"], 0,
    ["https://x.io/docs"], 0⟩

def sFrag4 : CrawlState :=
  ⟨["https://x.io/docs#install"], insert "https://x.io/docs" {"https://x.io"},
    insert "https://x.io/docs" {"https://x.io"},
    ["https://x.io", "https://x.io/docs"], 1, [], 0⟩

def sFrag5 : CrawlState :=
  ⟨[], insert "https://x.io/docs#install" (insert "https://x.io/docs" {"https://x.io"}),
    insert "https://x.io/docs" {"https://x.io"},
    ["https://x.io", "https://x.io/docs", "https://x.io/docs#install"], 0,
    ["https://x.io/docs#install"], 0⟩

/-- The state after the fragment-site crawl has processed all three
enqueued URLs: the store holds `…/docs` and `…/docs#install` as two
distinct keys. -/
def sFrag6 : CrawlState :=
  ⟨[], insert "https://x.io/docs#install" (insert "https://x.io/docs" {"https://x.io"}),
    insert "https://x.io/docs#install" (insert "https://x.io/docs" {"https://x.io"}),
    ["https://x.io", "https://x.io/docs", "https://x.io/docs#install"], 1, [], 0⟩

theorem stepFrag1 : Step siteFrag domX (initState "https://x.io" 1) sFrag1 := by
  have h := @Step.claim_new siteFrag domX "https://x.io" [] ∅ ∅ [] 0 [] 0 (by decide)
  exact h

theorem stepFrag2 : Step siteFrag domX sFrag1 sFrag2 := by
  have h := @Step.fetch_success siteFrag domX [] {"https://x.io"} ∅ ["https://x.io"]
    0 [] "https://x.io" [] 0 ["https://x.io/docs", "https://x.io/docs#install"]
    (by decide)
  exact h

theorem stepFrag3 : Step siteFrag domX sFrag2 sFrag3 := by
  have h := @Step.claim_new siteFrag domX "https://x.io/docs"
    ["https://x.io/docs#install"] {"https://x.io"} {"https://x.io"}
    ["https://x.io"] 0 [] 0 (by decide)
  exact h

theorem stepFrag4 : Step siteFrag domX sFrag3 sFrag4 := by
  have h := @Step.fetch_success siteFrag domX ["https://x.io/docs#install"]
    (insert "https://x.io/docs" {"https://x.io"}) {"https://x.io"}
    ["https://x.io", "https://x.io/docs"] 0 [] "https://x.io/docs" [] 0 []
    (by decide)
  exact h

theorem stepFrag5 : Step siteFrag domX sFrag4 sFrag5 := by
  have h := @Step.claim_new siteFrag domX "https://x.io/docs#install" []
    (insert "https://x.io/docs" {"https://x.io"})
    (insert "https://x.io/docs" {"https://x.io"})
    ["https://x.io", "https://x.io/docs"] 0 [] 0 (by decide)
  exact h

theorem stepFrag6 : Step siteFrag domX sFrag5 sFrag6 := by
  have h := @Step.fetch_success siteFrag domX []
    (insert "https://x.io/docs#install" (insert "https://x.io/docs" {"https://x.io"}))
    (insert "https://x.io/docs" {"https://x.io"})
    ["https://x.io", "https://x.io/docs", "https://x.io/docs#install"] 0 []
    "https://x.io/docs#install" [] 0 [] (by decide)
  exact h

/-- An execution of the crawl over the fragment site. -/
theorem reachFrag6 : Reach siteFrag domX (initState "https://x.io" 1) sFrag6 := by
  refine Relation.ReflTransGen.head stepFrag1 ?_
  refine Relation.ReflTransGen.head stepFrag2 ?_
  refine Relation.ReflTransGen.head stepFrag3 ?_
  refine Relation.ReflTransGen.head stepFrag4 ?_
  refine Relation.ReflTransGen.head stepFrag5 ?_
  exact Relation.ReflTransGen.single stepFrag6

theorem containsSubB_singleton_iff (c : Char) (l : List Char) :
    containsSubB [c] l = true ↔ c ∈ l := by
  induction l with
  | nil => simp [containsSubB]
  | cons b bs ih =>
    simp only [containsSubB, isPrefixB, Bool.or_eq_true, Bool.and_eq_true,
      beq_iff_eq, List.mem_cons, ih]
    tauto

theorem splitAtFirst_eq_none_of_not_mem {c : Char} {l : List Char}
    (h : c ∉ l) : splitAtFirst c l = none := by
  induction l with
  | nil => rfl
  | cons b bs ih =>
    simp only [List.mem_cons, not_or] at h
    simp only [splitAtFirst]
    rw [if_neg (fun hc => h.1 (hc.symm)), ih h.2]
    rfl

theorem stripFragment_eq_self {url : String}
    (h : strContains url "#" = false) : stripFragment url = url := by
  have hnm : '#' ∉ url.data := by
    intro hc
    have : containsSubB ['#'] url.data = true :=
      (containsSubB_singleton_iff '#' url.data).mpr hc
    rw [show strContains url "#" = containsSubB ['#'] url.data from rfl, this] at h
    exact Bool.noConfusion h
  show String.mk (takeBefore '#' url.data) = url
  rw [show takeBefore '#' url.data =
      (match splitAtFirst '#' url.data with
        | some (a, _) => a | none => url.data) from rfl,
    splitAtFirst_eq_none_of_not_mem hnm]

/-- **C3** (refuted as stated).  A URL on the configured domain,
containing no exclusion pattern, on which `should_crawl` nevertheless
returns `False`: the function applies a further rule, rejecting
query-carrying URLs that contain a tracking marker. -/
theorem should_crawl_has_tracking_rule :
    urlNetloc "https://keploy.io/blog?utm_source=x" = urlNetloc "https://keploy.io" ∧
    excluded_patterns.all
      (fun p => !strContains (asciiLower "https://keploy.io/blog?utm_source=x") p) = true ∧
    should_crawl "https://keploy.io" "https://keploy.io/blog?utm_source=x" = false := by
  decide

/-- **C3** (amended).  `should_crawl(url)` returns `True` iff the URL's
host equals the configured domain's host, the lowercased URL contains no
exclusion-list substring, and — the rule the original sentence omitted —
the fragment-stripped URL does not both contain a `?` and contain one of
the tracking markers `utm_`, `fbclid`, `gclid`.  The function never
modifies the URL it judges (it returns only a boolean; the fragment strip
is a local rebinding). -/
theorem should_crawl_spec (domain url : String) :
    should_crawl domain url = true ↔
      (urlNetloc url = urlNetloc domain ∧
        (∀ p ∈ excluded_patterns, strContains (asciiLower url) p = false) ∧
        (strContains (stripFragment url) "?" = true →
          ∀ t ∈ tracking_markers, strContains (stripFragment url) t = false)) := by
  have hurl : (if strContains url "#" then stripFragment url else url) =
      stripFragment url := by
    split_ifs with h
    · rfl
    · exact (stripFragment_eq_self (by simpa using h)).symm
  simp only [should_crawl]
  rw [hurl]
  have hof : ∀ (l : List String) (g : String → Bool), ¬ l.any g = true →
      ∀ p ∈ l, g p = false := by
    intro l g hl p hp
    cases hg : g p
    · rfl
    · exact absurd (List.any_eq_true.mpr ⟨p, hp, hg⟩) hl
  split_ifs with h1 h2 h3 h4
  · simp only [Bool.false_eq_true, false_iff]
    rintro ⟨hc, -, -⟩
    exact h1 hc
  · simp only [Bool.false_eq_true, false_iff]
    rintro ⟨-, hall, -⟩
    obtain ⟨p, hp, hsp⟩ := List.any_eq_true.mp h2
    rw [hall p hp] at hsp
    exact Bool.noConfusion hsp
  · simp only [Bool.false_eq_true, false_iff]
    rintro ⟨-, -, htr⟩
    obtain ⟨t, ht, hts⟩ := List.any_eq_true.mp h4
    rw [htr h3 t ht] at hts
    exact Bool.noConfusion hts
  · simp only [true_iff]
    exact ⟨not_ne_iff.mp h1, hof _ _ h2, fun _ => hof _ _ h4⟩
  · simp only [true_iff]
    exact ⟨not_ne_iff.mp h1, hof _ _ h2, fun hq => absurd hq h3⟩

theorem should_crawl_spec_witness :
    should_crawl "https://keploy.io" "https://keploy.io/docs" = true :=
  (should_crawl_spec "https://keploy.io" "https://keploy.io/docs").mpr
    ⟨by decide, by decide, by decide⟩

/-- **C4** (refuted as stated).  For the path `/docs/1.0.0/glossary/x`
the classifier returns 0.9 (the `/docs` tier), not the claimed 0.41; for
`/about` it returns the default 0.7, not 0.51.  (Priorities in
hundredths: 90 ≠ 41 and 70 ≠ 51.) -/
theorem get_priority_not_041_051 :
    get_priority "https://keploy.io" "https://keploy.io/docs/1.0.0/glossary/x" = 90 ∧
    (90 : ℕ) ≠ 41 ∧
    get_priority "https://keploy.io" "https://keploy.io/about" = 70 ∧
    (70 : ℕ) ≠ 51 := by
  decide

/-- **C4** (amended).  The priority classifier returns 1.0 for a URL
whose path is `/`, 0.9 (the `/docs` substring tier) for a URL whose path
is `/docs/1.0.0/glossary/x`, and 0.7 (the default tier) for a URL whose
path is `/about` — provided the configured domain string does not itself
equal those path strings (the classifier's first rule also fires when
the path equals the domain). -/
theorem get_priority_boundary (domain url1 url2 url3 : String)
    (h1 : urlPath url1 = "/")
    (h2 : urlPath url2 = "/docs/1.0.0/glossary/x")
    (h3 : urlPath url3 = "/about")
    (hd2 : domain ≠ "/docs/1.0.0/glossary/x")
    (hd3 : domain ≠ "/about") :
    get_priority domain url1 = 100 ∧ get_priority domain url2 = 90 ∧
      get_priority domain url3 = 70 := by
  refine ⟨?_, ?_, ?_⟩
  · simp only [get_priority, h1]
    rw [if_pos (Or.inl (by decide))]
  · simp only [get_priority, h2]
    rw [if_neg (by
      rintro (hc | hc | hc)
      · exact absurd hc (by decide)
      · exact absurd hc (by decide)
      · exact hd2 (by rw [← hc]; decide))]
    rw [if_pos (by decide)]
  · simp only [get_priority, h3]
    rw [if_neg (by
      rintro (hc | hc | hc)
      · exact absurd hc (by decide)
      · exact absurd hc (by decide)
      · exact hd3 (by rw [← hc]; decide))]
    rw [if_neg (by decide), if_neg (by decide), if_neg (by decide)]

theorem get_priority_boundary_witness :
    get_priority "https://keploy.io" "https://keploy.io/" = 100 ∧
    get_priority "https://keploy.io" "https://keploy.io/docs/1.0.0/glossary/x" = 90 ∧
    get_priority "https://keploy.io" "https://keploy.io/about" = 70 :=
  get_priority_boundary "https://keploy.io" "https://keploy.io/"
    "https://keploy.io/docs/1.0.0/glossary/x" "https://keploy.io/about"
    (by decide) (by decide) (by decide) (by decide) (by decide)

/-- **C6.** `fetch_url` returns the body text iff the HTTP response has
status 200 and a content-type containing `text/html` and the body could
be read; on every other outcome — non-200 status, wrong content type,
or any raised transport error (`FetchOutcome.err`) — it returns `none`.
By construction it is a total function into `Option`, so no exception
ever propagates to the caller. -/
theorem fetch_url_spec (o : FetchOutcome) (s : String) :
    fetch_url o = some s ↔
      ∃ ct, o = FetchOutcome.response 200 ct (some s) ∧
        strContains ct "text/html" = true := by
  cases o with
  | err =>
    constructor
    · intro h
      exact Option.noConfusion h
    · rintro ⟨ct, hc, -⟩
      exact FetchOutcome.noConfusion hc
  | response status ct body =>
    simp only [fetch_url]
    split_ifs with h
    · obtain ⟨h200, hct⟩ := h
      subst h200
      constructor
      · rintro rfl
        exact ⟨ct, rfl, hct⟩
      · rintro ⟨ct', hc, -⟩
        cases hc
        rfl
    · constructor
      · intro hc
        exact hc.elim
      · rintro ⟨ct', hc, hct⟩
        cases hc
        exact absurd ⟨rfl, hct⟩ h

theorem fetch_url_spec_witness :
    fetch_url (FetchOutcome.response 200 "text/html; charset=utf-8"
      (some "<html></html>")) = some "<html></html>" :=
  (fetch_url_spec (FetchOutcome.response 200 "text/html; charset=utf-8"
    (some "<html></html>")) "<html></html>").mpr
    ⟨"text/html; charset=utf-8", rfl, by decide⟩

/-- **C7.** With a previous snapshot present, `compare_with_previous`
computes exactly the set algebra `new = C \ P`, `removed = P \ C`,
`updated = C ∩ P`, `url_count_change = |C| - |P|`; in particular, for
`P = {A, B, C}` and `C = {B, C, D}` it yields new `{D}`, removed `{A}`,
updated `{B, C}` and count change 0. -/
theorem compare_with_previous_spec (p c : Finset String) :
    (∀ u, u ∈ (compare_with_previous (some p) c).new_urls ↔ u ∈ c ∧ u ∉ p) ∧
    (∀ u, u ∈ (compare_with_previous (some p) c).removed_urls ↔ u ∈ p ∧ u ∉ c) ∧
    (∀ u, u ∈ (compare_with_previous (some p) c).updated_urls ↔ u ∈ c ∧ u ∈ p) ∧
    (compare_with_previous (some p) c).url_count_change =
      some ((c.card : ℤ) - (p.card : ℤ)) ∧
    compare_with_previous (some {"A", "B", "C"}) {"B", "C", "D"} =
      { new_urls := {"D"}, removed_urls := {"A"}, updated_urls := {"B", "C"},
        url_count_change := some 0 } := by
  refine ⟨?_, ?_, ?_, rfl, by decide⟩
  · intro u
    simp [compare_with_previous, Finset.mem_sdiff]
  · intro u
    simp [compare_with_previous, Finset.mem_sdiff]
  · intro u
    simp only [compare_with_previous, Finset.mem_inter]

theorem compare_with_previous_spec_witness :
    (compare_with_previous (some {"A", "B", "C"}) {"B", "C", "D"}).new_urls = {"D"} := by
  have h := (compare_with_previous_spec {"A", "B", "C"} {"B", "C", "D"}).2.2.2.2
  exact congrArg ChangeSet.new_urls h

/-- **C8** (refuted as stated).  On a first run the returned dict does
*not* carry all four fields: the `url_count_change` key is absent
(`none` in the embedding) — the missing-snapshot branch builds a dict of
only the three list fields. -/
theorem compare_first_run_missing_count :
    (compare_with_previous none {"https://x.io"}).url_count_change = none := by
  decide

/-- **C8** (amended).  When the previous snapshot file does not exist,
`compare_with_previous` does not fail: it returns a ChangeSet whose
`new_urls` is the full current key set and whose `removed_urls` and
`updated_urls` are empty — but carrying only those three fields; the
`url_count_change` field is absent. -/
theorem compare_first_run_spec (c : Finset String) :
    (compare_with_previous none c).new_urls = c ∧
    (compare_with_previous none c).removed_urls = ∅ ∧
    (compare_with_previous none c).updated_urls = ∅ ∧
    (compare_with_previous none c).url_count_change = none :=
  ⟨rfl, rfl, rfl, rfl⟩

theorem compare_first_run_spec_witness :
    (compare_with_previous none {"https://x.io"}).new_urls = {"https://x.io"} :=
  (compare_first_run_spec {"https://x.io"}).1

theorem str_append_assoc (a b c : String) : a ++ b ++ c = a ++ (b ++ c) := by
  rcases a with ⟨a⟩
  rcases b with ⟨b⟩
  rcases c with ⟨c⟩
  show String.mk (a ++ b ++ c) = String.mk (a ++ (b ++ c))
  rw [List.append_assoc]

theorem lookup_eq_of_mem {l : List (String × PageRecord)}
    (hnd : (l.map Prod.fst).Nodup) {u : String} {r : PageRecord}
    (h : (u, r) ∈ l) : l.lookup u = some r := by
  induction l with
  | nil => cases h
  | cons a l ih =>
    obtain ⟨a1, a2⟩ := a
    simp only [List.map_cons, List.nodup_cons] at hnd
    rcases List.mem_cons.mp h with heq | hmem
    · cases heq
      simp [List.lookup]
    · have hne : u ≠ a1 := by
        intro he
        exact hnd.1 (he ▸ List.mem_map_of_mem Prod.fst hmem)
      have hbeq : (u == a1) = false := beq_eq_false_iff_ne.mpr hne
      simp only [List.lookup, hbeq]
      exact ih hnd.2 hmem

/-- A three-page store, as in the spec's sitemap round-trip test. -/
def store3 : List (String × PageRecord) :=
  [("https://x.io/docs", ⟨"2025-11-06", 90⟩),
   ("https://x.io", ⟨"2025-11-06", 100⟩),
   ("https://x.io/blog", ⟨"2025-11-06", 80⟩)]

/-- **C9.** `generate_xml_sitemap` emits one `<url>` element per stored
PageRecord (`sorted_keys` is a permutation of the store's keys, of the
same length, and each key maps to one `xml_url_entry`), ordered
lexicographically by URL string (code-point order `strLe`), each entry
containing `<loc>` with the URL, `<lastmod>` with the stored date and
`<priority>` with the two-decimal rendering `format2dp` of the stored
priority; and the whole output begins with the XML declaration. -/
theorem generate_xml_sitemap_spec (urls_data : List (String × PageRecord))
    (hnd : (urls_data.map Prod.fst).Nodup) :
    List.Sorted strLe (sorted_keys urls_data) ∧
    (sorted_keys urls_data).Perm (urls_data.map Prod.fst) ∧
    (sorted_keys urls_data).length = urls_data.length ∧
    (∀ u r, (u, r) ∈ urls_data →
      ((urls_data.lookup u).getD ⟨"", 0⟩) = r) ∧
    generate_xml_sitemap urls_data =
      xml_declaration ++ (urlset_open ++
        (String.join ((sorted_keys urls_data).map (fun u =>
          xml_url_entry u ((urls_data.lookup u).getD ⟨"", 0⟩))) ++ "</urlset>")) := by
  refine ⟨List.sorted_insertionSort strLe _, List.perm_insertionSort strLe _,
    ?_, ?_, ?_⟩
  · rw [sorted_keys, (List.perm_insertionSort strLe _).length_eq, List.length_map]
  · intro u r h
    rw [lookup_eq_of_mem hnd h]
    rfl
  · show xml_declaration ++ urlset_open ++ _ ++ "</urlset>" = _
    rw [str_append_assoc, str_append_assoc]

theorem generate_xml_sitemap_spec_witness :
    List.Sorted strLe (sorted_keys store3) ∧
    (sorted_keys store3).length = 3 ∧
    sorted_keys store3 = ["https://x.io", "https://x.io/blog", "https://x.io/docs"] ∧
    generate_xml_sitemap store3 =
      "<?xml version=\"1.0\" encoding=\"UTF-8\"?>\n" ++ urlset_open ++
        "<url><loc>https://x.io</loc><lastmod>2025-11-06</lastmod><priority>1.00</priority></url>" ++
        "<url><loc>https://x.io/blog</loc><lastmod>2025-11-06</lastmod><priority>0.80</priority></url>" ++
        "<url><loc>https://x.io/docs</loc><lastmod>2025-11-06</lastmod><priority>0.90</priority></url>" ++
        "</urlset>" := by
  have h := generate_xml_sitemap_spec store3 (by decide)
  exact ⟨h.1, h.2.2.1, by decide, by decide⟩

/-- **C5** (refuted: the code contradicts its own comments).  Nothing in
the crawl normalizes URLs: `should_crawl` accepts a fragment-bearing URL
(its fragment strip is a dead local rebinding, despite the comment
"Remove fragment to avoid crawling same page multiple times"), the
extracted links keep their fragments, and a crawl of a page linking to
both `/docs` and `/docs#install` visits, fetches and stores both as two
distinct sitemap keys — so stored URLs are not fragment-free, and URLs
differing only in fragment do not collapse to one entity. -/
theorem crawl_stores_fragment_url :
    should_crawl domX "https://x.io/docs#install" = true ∧
    Reach siteFrag domX (initState "https://x.io" 1) sFrag6 ∧
    "https://x.io/docs" ∈ sFrag6.storeKeys ∧
    "https://x.io/docs#install" ∈ sFrag6.storeKeys ∧
    strContains "https://x.io/docs#install" "#" = true ∧
    "https://x.io/docs" ∈ sFrag6.visited ∧
    "https://x.io/docs#install" ∈ sFrag6.visited :=
  ⟨by decide, reachFrag6, by decide, by decide, by decide, by decide, by decide⟩

theorem crawl_no_duplicate_fetch_witness :
    1 ≤ 2 ∧ sCycEnd.nIdle = 0 ∧ sCycEnd.fetching = [] ∧
    sCycEnd.fetchLog.Nodup ∧
    sCycEnd.fetchLog.count "https://x.io/a" = 1 ∧
    sCycEnd.visited = sCycEnd.fetchLog.toFinset := by
  have h := crawl_no_duplicate_fetch siteCyc domX "https://x.io" 2 (by decide)
    sCycEnd reachCycEnd (by decide) (by decide)
  refine ⟨by decide, by decide, by decide, h.1, ?_, h.2.2.2⟩
  exact h.2.2.1 _ ((h.2.1 _).mp (by decide))

theorem crawl_terminates_witness :
    ¬ ∃ f : ℕ → CrawlState, f 0 = initState "https://x.io" 2 ∧
      ∀ k, Step siteCyc domX (f k) (f (k + 1)) := by
  have h := crawl_terminates siteCyc domX "https://x.io" 2
    {"https://x.io", "https://x.io/a"} siteCyc_closed (by decide) (by decide)
  exact h.1

theorem store_keys_subset_visited_witness :
    sFrag6.storeKeys ⊆ sFrag6.visited := by
  have h := store_keys_subset_visited siteFrag domX "https://x.io" 1 sFrag6 reachFrag6
  exact h.1
